import Mathlib

/-!
Verification development for the incremental PNG batch optimizer
(optipngdir.py): a shallow embedding of its path-key normalization,
fingerprint store, change planner, save routine, safe-name adapter,
worker aggregation and cancellation logic, together with theorems about
the claims of the specification.

The Unicode NFC transform is kept abstract throughout: every definition
that needs it takes a parameter nfc standing for
unicodedata.normalize applied with the NFC form, and theorems that need
facts about NFC state them as explicit hypotheses.
-/

namespace Optipngdir

/-- Embedding of the Python expression s.replace(os.path.sep, sep) where
os.path.sep is a single character: every occurrence of the platform
separator is replaced by the canonical one. -/
def replaceSep (sep : Char) (s : String) : String :=
  String.mk (s.data.map (fun c => if c = sep then '/' else c))

/-- The key normalization applied at lines 152, 170 and 193 of
optipngdir.py: replace the platform separator by the canonical one in the
raw relative path, then apply the Unicode normalization to the whole
string. -/
def normKey (nfc : String → String) (sep : Char) (s : String) : String :=
  nfc (replaceSep sep s)

/-- Length of the common prefix of two component lists, as
os.path.commonprefix computes it on the split path lists inside
os.path.relpath. -/
def commonLen : List String → List String → Nat
  | a :: as, b :: bs => if a = b then commonLen as bs + 1 else 0
  | _, _ => 0

/-- The component list of a path relative to a start directory, as
computed lexically by os.path.relpath: one parent-directory component
for each start component past the common prefix, then the path
components past the common prefix. -/
def relComponents (pathC startC : List String) : List String :=
  List.replicate (startC.length - commonLen startC pathC) ".." ++
    pathC.drop (commonLen startC pathC)

/-- Embedding of Python sep.join on a component list. -/
def joinSep (sep : Char) : List String → String
  | [] => ""
  | [p] => p
  | p :: q :: ps => p ++ String.mk [sep] ++ joinSep sep (q :: ps)

/-- os.path.relpath of a path against a start directory, both given as
component lists of their absolute forms: the period when the component
list is empty, otherwise the components joined with the platform
separator. -/
def relpath (sep : Char) (pathC startC : List String) : String :=
  if relComponents pathC startC = [] then "."
  else joinSep sep (relComponents pathC startC)

/-- The PathKey the source computes for a file against the scan root
(add_optimized_timestamp lines 192 to 193, load_and_clean_timestamps
lines 169 to 170): the relative path, with the platform separator
replaced by the canonical one, Unicode-normalized as a whole. -/
def pathKey (nfc : String → String) (sep : Char) (pathC startC : List String) : String :=
  normKey nfc sep (relpath sep pathC startC)

/-- Modelled from the spec words of section 4.1, for comparison with the
source computation: compute the path relative to the root, written
directly with the canonical separator, then apply the Unicode canonical
composition normalization to the whole string. -/
def pathKeySpec (nfc : String → String) (pathC startC : List String) : String :=
  nfc (if relComponents pathC startC = [] then "."
       else joinSep '/' (relComponents pathC startC))

/-- The in-memory fingerprint store: insertion-ordered pairs of a
normalized key and a timestamp, embedding the Python dict
optimized_timestamps. A value of none embeds Python None, the result of
a failed modification-time read. -/
abbrev Store := List (String × Option Int)

/-- Python dict assignment d[k] = v: the value of an existing key is
replaced in place, a new key is appended at the end. -/
def storeSet : Store → String → Option Int → Store
  | [], k, v => [(k, v)]
  | kv :: rest, k, v => if kv.1 = k then (k, v) :: rest else kv :: storeSet rest k v

/-- Python membership test plus lookup: some d[k] when k is a key of d,
none otherwise. -/
def storeGet : Store → String → Option (Option Int)
  | [], _ => none
  | kv :: rest, k => if kv.1 = k then some kv.2 else storeGet rest k

/-- The key list of a store, in insertion order. -/
def storeKeys (st : Store) : List String := st.map (fun kv => kv.1)

/-- Lines 149 to 153 of load_and_clean_timestamps: the persisted mapping
is rebuilt with every raw key re-normalized; on a duplicated normalized
key the later value wins, as in the Python dict comprehension. -/
def loadTimestamps (nfc : String → String) (sep : Char) (raw : List (String × Option Int)) : Store :=
  raw.foldl (fun acc kv => storeSet acc (normKey nfc sep kv.1) kv.2) []

/-- The three states of the persisted timestamp file as
load_and_clean_timestamps distinguishes them: absent, structurally
corrupt, or a readable list of key and timestamp pairs. -/
inductive PersistedFile where
  | missing : PersistedFile
  | corrupt : PersistedFile
  | ok : List (String × Option Int) → PersistedFile

/-- Lines 148 to 158: a missing file and a corrupt file both yield the
empty store, a readable one is loaded with key normalization. -/
def loadPersisted (nfc : String → String) (sep : Char) : PersistedFile → Store
  | PersistedFile.missing => []
  | PersistedFile.corrupt => []
  | PersistedFile.ok raw => loadTimestamps nfc sep raw

/-- Lines 173 to 178: keep the entries whose key is among the discovered
normalized paths, and count the dropped ones. -/
def cleanTimestamps (st : Store) (existing : List String) : Store × Nat :=
  (st.filter (fun kv => existing.contains kv.1),
   (st.filter (fun kv => !(existing.contains kv.1))).length)

/-- Lines 190 to 194: record a processed file under its normalized
relative key. -/
def add_optimized_timestamp (nfc : String → String) (sep : Char) (st : Store)
    (pathC startC : List String) (timestamp : Option Int) : Store :=
  storeSet st (pathKey nfc sep pathC startC) timestamp

/-- Line 364: the skip test of the change planner, true when the key is
present in the store and the stored timestamp equals the current one.
Both sides are Python values that may be None; None equals None in
Python, which the Option equality mirrors. -/
def isSkipped (st : Store) (fp : String → Option Int) (k : String) : Bool :=
  match storeGet st k with
  | some v => v == fp k
  | none => false

/-- Lines 362 to 367: one step of the planning fold, appending to the
work list or bumping the skip counter. -/
def planStep (st : Store) (fp : String → Option Int)
    (acc : List String × Nat) (k : String) : List String × Nat :=
  if isSkipped st fp k then (acc.1, acc.2 + 1) else (acc.1 ++ [k], acc.2)

/-- Lines 362 to 367: the change planner, folded over the discovered
normalized keys in discovery order, produces the work list and the skip
count. -/
def plan (st : Store) (fp : String → Option Int) (files : List String) : List String × Nat :=
  files.foldl (planStep st fp) ([], 0)

/-- How a call of save_optimized_timestamps can fail: the open itself
fails (the file is untouched), or the write fails after k characters
were written to the already truncated file. -/
inductive SaveFailure where
  | openFail : SaveFailure
  | writeFail : Nat → SaveFailure

/-- Lines 196 to 202: the save routine opens the timestamp file in write
mode, which truncates it in place, then writes the serialized mapping;
an IOError is caught and an error line is printed. The result is the
on-disk content after the call (none meaning no file) paired with
whether the error line was printed; the function always returns, so the
run continues either way. -/
def save_optimized_timestamps (serialized : String) (disk : Option String) :
    Option SaveFailure → Option String × Bool
  | none => (some serialized, false)
  | some SaveFailure.openFail => (disk, true)
  | some (SaveFailure.writeFail k) => (some (serialized.take k), true)

/-- posixpath.join of a directory and a final component. -/
def pathJoin (a b : String) : String :=
  if b.startsWith "/" then b
  else if a = "" ∨ a.endsWith "/" then a ++ b
  else a ++ "/" ++ b

/-- Lines 39 to 59, POSIX branch: the root of a path. splitdrive yields
an empty drive on POSIX, so the function inspects the leading components
of an absolute path, treating mnt, media and opt as mount point
directories. -/
def get_path_root (path : String) : String :=
  if path.startsWith "/" then
    match path.splitOn "/" with
    | _ :: p1 :: rest =>
      if p1 ≠ "" then
        if p1 = "mnt" ∨ p1 = "media" ∨ p1 = "opt" then
          match rest with
          | p2 :: _ => if p2 ≠ "" then "/" ++ p1 ++ "/" ++ p2 else "/" ++ p1
          | [] => "/" ++ p1
        else "/" ++ p1
      else if path = "/" then "/" else ""
    | _ => if path = "/" then "/" else ""
  else ""

/-- Lines 61 to 69, POSIX branch: the surrogate filename is the hex
digest of the absolute original path joined onto the path root. The
digest function is an abstract parameter standing for the md5 hex digest
of the UTF-8 bytes of the path. -/
def generate_temp_filename (md5hex : String → String) (fullfilename : String) : String :=
  pathJoin (get_path_root fullfilename) (md5hex fullfilename)

/-- The value optimize_png returns, together with the log lines written
through the progress bar during the rename-back phase and the filename
the function ends up measuring. -/
structure OptimizeOutcome where
  success : Bool
  output : String
  savings : Int
  finalName : String
  logs : List String
deriving Repr, DecidableEq

/-- Lines 272 to 286 of optimize_png: the phase after the external
command has returned. The parameter renamed says whether the file was
moved to a surrogate name before the command ran, tempExists embeds
os.path.exists on the surrogate, renameBackError embeds an OSError
raised by os.rename when moving the surrogate back (none meaning the
rename succeeded), and sizeOf embeds get_file_size on the post-command
filesystem, yielding 0 for a missing file. When the rename back is
attempted and raises, the error is logged and the surrogate name is
kept; when the surrogate no longer exists the rename back is skipped
with no log line. On exit code 0 the result is success with the raw
size difference as savings; otherwise failure with zero savings. -/
def renameBack (renamed : Bool) (temp_filename original_filename : String)
    (tempExists : Bool) (renameBackError : Option String) : String × List String :=
  if renamed && tempExists && (original_filename != temp_filename) then
    match renameBackError with
    | none => (original_filename, [])
    | some e => (temp_filename,
        ["Error renaming " ++ temp_filename ++ " back to " ++ original_filename ++ ": " ++ e])
  else (original_filename, [])

def optimize_png_post (original_size : Nat) (renamed : Bool)
    (temp_filename original_filename : String) (tempExists : Bool)
    (renameBackError : Option String) (returncode : Int)
    (stdout stderr : String) (sizeOf : String → Nat) : OptimizeOutcome :=
  let renback : String × List String :=
    renameBack renamed temp_filename original_filename tempExists renameBackError
  if returncode = 0 then
    { success := true, output := stdout.trim,
      savings := (original_size : Int) - (sizeOf renback.1 : Int),
      finalName := renback.1, logs := renback.2 }
  else
    { success := false, output := stderr.trim, savings := 0,
      finalName := renback.1, logs := renback.2 }

/-- The run-wide aggregate a worker mutates: counters, cumulative
savings and the in-memory store. -/
structure Agg where
  processed : Nat
  succeeded : Nat
  errors : Nat
  savings : Int
  store : Store
deriving Repr, DecidableEq

/-- Lines 436 to 446: the aggregation performed for one finished item:
on success the success counter, the cumulative savings and the store
entry for the normalized key of the file, with its post-command
modification time; on failure the error counter; the processed counter
either way. -/
def workerRecord (a : Agg) (key : String) (success : Bool) (savings : Int)
    (freshTimestamp : Option Int) : Agg :=
  if success then
    { a with succeeded := a.succeeded + 1, savings := a.savings + savings,
             store := storeSet a.store key freshTimestamp,
             processed := a.processed + 1 }
  else
    { a with errors := a.errors + 1, processed := a.processed + 1 }

/-- Lines 435 and 470 to 471: when the external command of an item has
returned, its outcome is recorded only if the exit flag is not set;
with the flag set the worker only prints an interruption note and the
outcome is discarded. -/
def workerFinish (flag : Bool) (a : Agg) (key : String) (success : Bool)
    (savings : Int) (freshTimestamp : Option Int) : Agg :=
  if flag then a else workerRecord a key success savings freshTimestamp

/-- A point-in-time view of one run: the keys not yet dispatched, the
keys whose external command is in flight, the exit flag, the aggregate,
and the persisted store once the final save has happened. -/
structure RunState where
  pending : List String
  running : List String
  flag : Bool
  agg : Agg
  saved : Option Store
deriving Repr, DecidableEq

/-- The observable events of a run. -/
inductive Event where
  | dispatch : String → Event
  | raiseFlag : Event
  | complete : String → Bool → Int → Option Int → Event
  | save : Event

/-- Small-step semantics of the dispatch loop (lines 473 to 501) and the
workers (lines 422 to 471): a new item is dispatched only when the exit
flag is unset (line 474); the interrupt handler sets the flag once
(lines 118 to 124); a dispatched item runs to completion and its outcome
is recorded through workerFinish, which discards it when the flag is
set; after the loop has drained, the store is persisted once. -/
inductive Step : RunState → Event → RunState → Prop where
  | dispatch : ∀ s k rest, s.flag = false → s.pending = k :: rest → s.saved = none →
      Step s (Event.dispatch k)
        { s with pending := rest, running := s.running ++ [k] }
  | raiseFlag : ∀ s, s.flag = false →
      Step s Event.raiseFlag { s with flag := true }
  | complete : ∀ s k (success : Bool) (savings : Int) (ts : Option Int),
      k ∈ s.running → s.saved = none →
      Step s (Event.complete k success savings ts)
        { s with running := s.running.erase k,
                 agg := workerFinish s.flag s.agg k success savings ts }
  | save : ∀ s, s.running = [] → (s.pending = [] ∨ s.flag = true) → s.saved = none →
      Step s Event.save { s with saved := some s.agg.store }

/-- One half of an unsynchronized increment of the shared success
counter (line 437): the load of the shared value into the thread, or the
store of the incremented value back. -/
inductive MicroOp where
  | load : Nat → MicroOp
  | store : Nat → MicroOp

/-- Execution of one micro operation over the shared counter and the
per-thread intermediate values. -/
def microStep (s : Nat × (Nat → Nat)) : MicroOp → Nat × (Nat → Nat)
  | MicroOp.load w => (s.1, fun v => if v = w then s.1 else s.2 v)
  | MicroOp.store w => (s.2 w + 1, s.2)

/-- The final value of the shared counter after a schedule of micro
operations, starting from zero. -/
def runOps (ops : List MicroOp) : Nat :=
  (ops.foldl microStep (0, fun _ => 0)).1

/-- The program of one worker performing the unsynchronized increment of
line 437: load the shared counter, then store the incremented value. -/
def incProgram (w : Nat) : List MicroOp := [MicroOp.load w, MicroOp.store w]

/-- cs is an interleaving of the operation sequences of two threads,
preserving the program order of each. -/
inductive Interleaving : List MicroOp → List MicroOp → List MicroOp → Prop where
  | nil : Interleaving [] [] []
  | left : ∀ a as bs cs, Interleaving as bs cs → Interleaving (a :: as) bs (a :: cs)
  | right : ∀ b as bs cs, Interleaving as bs cs → Interleaving as (b :: bs) (b :: cs)

/-- Run 1 store update at the planning level, from lines 435 to 439:
every work item of the plan succeeds and inserts its key with its
post-command timestamp, fpAfter. -/
def runPass (store : Store) (fpBefore fpAfter : String → Option Int)
    (files : List String) : Store :=
  ((plan store fpBefore files).1).foldl (fun st k => storeSet st k (fpAfter k)) store

/-- The predicate of claim ten on a store key: the platform separator is
already fully replaced and the Unicode normalization is already
applied, so re-normalizing is the identity. -/
def NormalizedKey (nfc : String → String) (sep : Char) (k : String) : Prop :=
  replaceSep sep k = k ∧ nfc k = k

/-- The stores reachable inside one run: the store produced by loading
and reconciling the persisted file, and any store obtained from a
reachable one by recording a success. These are the only mutations of
optimized_timestamps in optipngdir.py. -/
inductive InRunStore (nfc : String → String) (sep : Char) : Store → Prop where
  | loaded : ∀ (pf : PersistedFile) (existing : List String),
      InRunStore nfc sep (cleanTimestamps (loadPersisted nfc sep pf) existing).1
  | added : ∀ st pathC startC ts, InRunStore nfc sep st →
      InRunStore nfc sep (add_optimized_timestamp nfc sep st pathC startC ts)

/-! Helper lemmas about the separator replacement. -/

theorem replaceSep_eq_self (sep : Char) (s : String)
    (h : ∀ ch ∈ s.data, ch ≠ sep) : replaceSep sep s = s := by
  apply String.ext
  show s.data.map (fun c => if c = sep then '/' else c) = s.data
  have hgen : ∀ (l : List Char), (∀ ch ∈ l, ch ≠ sep) →
      l.map (fun c => if c = sep then '/' else c) = l := by
    intro l
    induction l with
    | nil => intro _; rfl
    | cons c cs ih =>
      intro hl
      have hc : c ≠ sep := hl c (List.mem_cons_self c cs)
      simp only [List.map_cons, if_neg hc]
      rw [ih (fun ch hch => hl ch (List.mem_cons_of_mem c hch))]
  exact hgen s.data h

theorem replaceSep_slash (s : String) : replaceSep '/' s = s := by
  apply String.ext
  show s.data.map (fun c => if c = '/' then '/' else c) = s.data
  have hfun : (fun c => if c = '/' then '/' else c) = fun c : Char => c := by
    funext c
    by_cases hc : c = '/'
    · simp [hc]
    · simp [hc]
  rw [hfun]
  exact List.map_id s.data

theorem no_sep_in_replaceSep (sep : Char) (s : String) (h : sep ≠ '/') :
    ∀ ch ∈ (replaceSep sep s).data, ch ≠ sep := by
  intro ch hch
  have : ch ∈ s.data.map (fun c => if c = sep then '/' else c) := hch
  obtain ⟨c, _, hc⟩ := List.mem_map.mp this
  by_cases hcs : c = sep
  · rw [if_pos hcs] at hc
    exact hc ▸ fun hcon => h hcon.symm
  · rw [if_neg hcs] at hc
    exact hc ▸ hcs

theorem replaceSep_append (sep : Char) (a b : String) :
    replaceSep sep (a ++ b) = replaceSep sep a ++ replaceSep sep b := by
  apply String.ext
  show ((a ++ b).data).map _ = _
  have hd : (a ++ b).data = a.data ++ b.data := rfl
  rw [hd, List.map_append]
  rfl

theorem replaceSep_sep_str (sep : Char) : replaceSep sep (String.mk [sep]) = "/" := by
  show String.mk ([sep].map (fun c => if c = sep then '/' else c)) = "/"
  simp

theorem replaceSep_joinSep (sep : Char) (l : List String)
    (h : ∀ p ∈ l, ∀ ch ∈ p.data, ch ≠ sep) :
    replaceSep sep (joinSep sep l) = joinSep '/' l := by
  induction l with
  | nil => rfl
  | cons p ps ih =>
    cases ps with
    | nil => exact replaceSep_eq_self sep p (h p (by simp))
    | cons q qs =>
      show replaceSep sep (p ++ String.mk [sep] ++ joinSep sep (q :: qs)) = _
      rw [replaceSep_append, replaceSep_append, replaceSep_sep_str,
        replaceSep_eq_self sep p (h p (by simp)),
        ih (fun r hr => h r (by simp [hr]))]
      rfl

/-! Helper lemmas about the store operations. -/

theorem mem_storeSet (st : Store) (k : String) (v : Option Int) :
    ∀ kv ∈ storeSet st k v, kv = (k, v) ∨ kv ∈ st := by
  induction st with
  | nil => intro kv hkv; simp [storeSet] at hkv; simp [hkv]
  | cons a rest ih =>
    intro kv hkv
    by_cases ha : a.1 = k
    · simp only [storeSet, if_pos ha] at hkv
      rcases List.mem_cons.mp hkv with h | h
      · exact Or.inl h
      · exact Or.inr (List.mem_cons_of_mem a h)
    · simp only [storeSet, if_neg ha] at hkv
      rcases List.mem_cons.mp hkv with h | h
      · exact Or.inr (h ▸ List.mem_cons_self a rest)
      · rcases ih kv h with h2 | h2
        · exact Or.inl h2
        · exact Or.inr (List.mem_cons_of_mem a h2)

theorem storeKeys_storeSet (st : Store) (k : String) (v : Option Int) :
    ∀ k2 ∈ storeKeys (storeSet st k v), k2 = k ∨ k2 ∈ storeKeys st := by
  intro k2 hk2
  obtain ⟨kv, hkv, hk⟩ := List.mem_map.mp hk2
  rcases mem_storeSet st k v kv hkv with h | h
  · exact Or.inl (hk ▸ h ▸ rfl)
  · exact Or.inr (hk ▸ List.mem_map_of_mem _ h)

theorem storeKeys_storeSet_nodup (st : Store) (k : String) (v : Option Int)
    (h : (storeKeys st).Nodup) : (storeKeys (storeSet st k v)).Nodup := by
  induction st with
  | nil => simp [storeSet, storeKeys]
  | cons a rest ih =>
    have hrest : (storeKeys rest).Nodup := (List.nodup_cons.mp h).2
    have hamem : a.1 ∉ storeKeys rest := (List.nodup_cons.mp h).1
    by_cases ha : a.1 = k
    · simp only [storeSet, if_pos ha]
      show (k :: storeKeys rest).Nodup
      exact List.nodup_cons.mpr ⟨ha ▸ hamem, hrest⟩
    · simp only [storeSet, if_neg ha]
      show (a.1 :: storeKeys (storeSet rest k v)).Nodup
      refine List.nodup_cons.mpr ⟨?_, ih hrest⟩
      intro hmem
      rcases storeKeys_storeSet rest k v a.1 hmem with h2 | h2
      · exact ha h2
      · exact hamem h2

theorem storeGet_storeSet_self (st : Store) (k : String) (v : Option Int) :
    storeGet (storeSet st k v) k = some v := by
  induction st with
  | nil => simp [storeSet, storeGet]
  | cons a rest ih =>
    by_cases ha : a.1 = k
    · simp [storeSet, if_pos ha, storeGet]
    · simp [storeSet, if_neg ha, storeGet, ha, ih]

theorem storeGet_storeSet_ne (st : Store) (k k2 : String) (v : Option Int)
    (h : k2 ≠ k) : storeGet (storeSet st k v) k2 = storeGet st k2 := by
  have hkk : ¬(k = k2) := fun hc => h hc.symm
  induction st with
  | nil => simp [storeSet, storeGet, hkk]
  | cons a rest ih =>
    by_cases ha : a.1 = k
    · subst ha
      simp [storeSet, storeGet, hkk]
    · simp [storeSet, storeGet, ha, ih]

theorem storeSet_append (st : Store) (k : String) (v : Option Int)
    (h : k ∉ storeKeys st) : storeSet st k v = st ++ [(k, v)] := by
  induction st with
  | nil => rfl
  | cons a rest ih =>
    have ha : a.1 ≠ k := fun hc => h (hc ▸ List.mem_map_of_mem _ (List.mem_cons_self a rest))
    simp only [storeSet, if_neg ha, List.cons_append]
    rw [ih (fun hc => h (List.mem_cons_of_mem _ hc))]

/-! Helper lemmas about the change planner. -/

theorem plan_foldl (st : Store) (fp : String → Option Int) :
    ∀ (files : List String) (acc : List String × Nat),
      files.foldl (planStep st fp) acc =
        (acc.1 ++ files.filter (fun k => !(isSkipped st fp k)),
         acc.2 + (files.filter (fun k => isSkipped st fp k)).length) := by
  intro files
  induction files with
  | nil => intro acc; simp
  | cons k fs ih =>
    intro acc
    by_cases hk : isSkipped st fp k = true
    · have hstep : planStep st fp acc k = (acc.1, acc.2 + 1) := by
        simp [planStep, hk]
      rw [List.foldl_cons, hstep, ih]
      simp [List.filter_cons, hk]
      omega
    · have hk2 : isSkipped st fp k = false := by
        cases h2 : isSkipped st fp k
        · rfl
        · exact absurd h2 hk
      have hstep : planStep st fp acc k = (acc.1 ++ [k], acc.2) := by
        simp [planStep, hk2]
      rw [List.foldl_cons, hstep, ih]
      simp [List.filter_cons, hk2]

theorem plan_eq_filter (st : Store) (fp : String → Option Int) (files : List String) :
    plan st fp files =
      (files.filter (fun k => !(isSkipped st fp k)),
       (files.filter (fun k => isSkipped st fp k)).length) := by
  rw [plan, plan_foldl]
  simp

theorem filter_length_split (p : String → Bool) (l : List String) :
    (l.filter (fun k => !(p k))).length + (l.filter p).length = l.length := by
  induction l with
  | nil => rfl
  | cons a rest ih =>
    by_cases ha : p a = true
    · simp [List.filter_cons, ha]
      omega
    · have ha2 : p a = false := by
        cases h2 : p a
        · rfl
        · exact absurd h2 ha
      simp [List.filter_cons, ha2]
      omega

theorem plan_all_skipped (st : Store) (fp : String → Option Int) (files : List String)
    (h : ∀ k ∈ files, isSkipped st fp k = true) :
    plan st fp files = ([], files.length) := by
  rw [plan_eq_filter]
  have h1 : files.filter (fun k => !(isSkipped st fp k)) = [] := by
    rw [List.filter_eq_nil_iff]
    intro a ha
    simp [h a ha]
  have h2 : files.filter (fun k => isSkipped st fp k) = files :=
    List.filter_eq_self.mpr h
  rw [h1, h2]

/-! Helper lemmas about skipping and loading. -/

theorem isSkipped_true_iff (st : Store) (fp : String → Option Int) (k : String) :
    isSkipped st fp k = true ↔ storeGet st k = some (fp k) := by
  constructor
  · intro h
    unfold isSkipped at h
    cases hg : storeGet st k with
    | none => rw [hg] at h; exact absurd h (by simp)
    | some v =>
      rw [hg] at h
      have hv : v = fp k := by
        simpa using h
      rw [hv]
  · intro h
    unfold isSkipped
    rw [h]
    simp

theorem loadTimestamps_keys (nfc : String → String) (sep : Char)
    (raw : List (String × Option Int)) :
    ∀ k ∈ storeKeys (loadTimestamps nfc sep raw), ∃ s, k = normKey nfc sep s := by
  have hgen : ∀ (l : List (String × Option Int)) (acc : Store),
      (∀ k ∈ storeKeys acc, ∃ s, k = normKey nfc sep s) →
      ∀ k ∈ storeKeys (l.foldl (fun a kv => storeSet a (normKey nfc sep kv.1) kv.2) acc),
        ∃ s, k = normKey nfc sep s := by
    intro l
    induction l with
    | nil => intro acc hacc k hk; exact hacc k hk
    | cons kv rest ih =>
      intro acc hacc k hk
      refine ih (storeSet acc (normKey nfc sep kv.1) kv.2) ?_ k hk
      intro k2 hk2
      rcases storeKeys_storeSet acc (normKey nfc sep kv.1) kv.2 k2 hk2 with h | h
      · exact ⟨kv.1, h⟩
      · exact hacc k2 h
  intro k hk
  exact hgen raw [] (by intro k2 hk2; exact absurd hk2 (by simp [storeKeys])) k hk

theorem loadTimestamps_fixed (nfc : String → String) (sep : Char) :
    ∀ (st acc : Store),
      (∀ kv ∈ st, normKey nfc sep kv.1 = kv.1) →
      (storeKeys (acc ++ st)).Nodup →
      st.foldl (fun a kv => storeSet a (normKey nfc sep kv.1) kv.2) acc = acc ++ st := by
  intro st
  induction st with
  | nil => intro acc _ _; simp
  | cons kv rest ih =>
    intro acc hfix hnd
    have hkv : normKey nfc sep kv.1 = kv.1 := hfix kv (List.mem_cons_self kv rest)
    have hnd2 : (storeKeys acc ++ kv.1 :: storeKeys rest).Nodup := by
      have he : storeKeys (acc ++ kv :: rest) = storeKeys acc ++ kv.1 :: storeKeys rest := by
        simp [storeKeys]
      exact he ▸ hnd
    have hnotin : kv.1 ∉ storeKeys acc := by
      intro hmem
      have hdisj := List.disjoint_of_nodup_append hnd2
      exact hdisj hmem (List.mem_cons_self kv.1 (storeKeys rest))
    rw [List.foldl_cons, hkv, storeSet_append acc kv.1 kv.2 hnotin]
    have heta : (kv.1, kv.2) = kv := rfl
    rw [heta]
    have hnd3 : (storeKeys ((acc ++ [kv]) ++ rest)).Nodup := by
      rw [List.append_assoc, List.singleton_append]
      exact hnd
    rw [ih (acc ++ [kv]) (fun kv2 h2 => hfix kv2 (List.mem_cons_of_mem kv h2)) hnd3,
      List.append_assoc, List.singleton_append]

theorem cleanTimestamps_id (st : Store) (existing : List String)
    (h : ∀ kv ∈ st, kv.1 ∈ existing) : cleanTimestamps st existing = (st, 0) := by
  unfold cleanTimestamps
  have h1 : st.filter (fun kv => existing.contains kv.1) = st := by
    rw [List.filter_eq_self]
    intro kv hkv
    exact List.elem_eq_true_of_mem (h kv hkv)
  have h2 : st.filter (fun kv => !(existing.contains kv.1)) = [] := by
    rw [List.filter_eq_nil_iff]
    intro kv hkv
    simpa using h kv hkv
  rw [h1, h2]
  rfl

theorem mem_runPass_fold (fpAfter : String → Option Int) :
    ∀ (wl : List String) (st : Store) (kv : String × Option Int),
      kv ∈ wl.foldl (fun a k => storeSet a k (fpAfter k)) st →
      kv ∈ st ∨ kv.1 ∈ wl := by
  intro wl
  induction wl with
  | nil => intro st kv hkv; exact Or.inl hkv
  | cons a rest ih =>
    intro st kv hkv
    rw [List.foldl_cons] at hkv
    rcases ih (storeSet st a (fpAfter a)) kv hkv with h | h
    · rcases mem_storeSet st a (fpAfter a) kv h with h2 | h2
      · exact Or.inr (h2 ▸ List.mem_cons_self a rest)
      · exact Or.inl h2
    · exact Or.inr (List.mem_cons_of_mem a h)

theorem nodup_runPass_fold (fpAfter : String → Option Int) :
    ∀ (wl : List String) (st : Store), (storeKeys st).Nodup →
      (storeKeys (wl.foldl (fun a k => storeSet a k (fpAfter k)) st)).Nodup := by
  intro wl
  induction wl with
  | nil => intro st hst; exact hst
  | cons a rest ih =>
    intro st hst
    rw [List.foldl_cons]
    exact ih (storeSet st a (fpAfter a)) (storeKeys_storeSet_nodup st a (fpAfter a) hst)

theorem storeGet_runPass_not_mem (fpAfter : String → Option Int) :
    ∀ (wl : List String) (st : Store) (k : String), k ∉ wl →
      storeGet (wl.foldl (fun a k2 => storeSet a k2 (fpAfter k2)) st) k = storeGet st k := by
  intro wl
  induction wl with
  | nil => intro st k _; rfl
  | cons a rest ih =>
    intro st k hk
    rw [List.foldl_cons]
    have hka : k ≠ a := fun hc => hk (hc ▸ List.mem_cons_self a rest)
    rw [ih (storeSet st a (fpAfter a)) k (fun hc => hk (List.mem_cons_of_mem a hc)),
      storeGet_storeSet_ne st a k (fpAfter a) hka]

theorem storeGet_runPass_mem (fpAfter : String → Option Int) :
    ∀ (wl : List String) (st : Store) (k : String), k ∈ wl → wl.Nodup →
      storeGet (wl.foldl (fun a k2 => storeSet a k2 (fpAfter k2)) st) k = some (fpAfter k) := by
  intro wl
  induction wl with
  | nil => intro st k hk; exact absurd hk (by simp)
  | cons a rest ih =>
    intro st k hk hnd
    rw [List.foldl_cons]
    by_cases hka : k = a
    · subst hka
      have hknot : k ∉ rest := (List.nodup_cons.mp hnd).1
      rw [storeGet_runPass_not_mem fpAfter rest (storeSet st k (fpAfter k)) k hknot]
      exact storeGet_storeSet_self st k (fpAfter k)
    · have hkr : k ∈ rest := by
        rcases List.mem_cons.mp hk with h | h
        · exact absurd h hka
        · exact h
      exact ih (storeSet st a (fpAfter a)) k hkr (List.nodup_cons.mp hnd).2

/-! Helper lemma for the normalization invariant. -/

theorem normalizedKey_normKey (nfc : String → String) (sep : Char)
    (hIdem : ∀ s, nfc (nfc s) = nfc s)
    (hPres : ∀ s, (∀ ch ∈ s.data, ch ≠ sep) → ∀ ch ∈ (nfc s).data, ch ≠ sep)
    (s : String) : NormalizedKey nfc sep (normKey nfc sep s) := by
  constructor
  · by_cases hsep : sep = '/'
    · subst hsep
      exact replaceSep_slash (normKey nfc '/' s)
    · apply replaceSep_eq_self
      exact hPres (replaceSep sep s) (no_sep_in_replaceSep sep s hsep)
  · exact hIdem (replaceSep sep s)

theorem optimize_png_post_finalName (original_size : Nat) (renamed : Bool)
    (temp orig : String) (tempExists : Bool) (rbe : Option String) (rc : Int)
    (stdout stderr : String) (sizeOf : String → Nat) :
    (optimize_png_post original_size renamed temp orig tempExists rbe rc stdout stderr sizeOf).finalName
      = (renameBack renamed temp orig tempExists rbe).1 := by
  unfold optimize_png_post
  split <;> rfl

theorem optimize_png_post_logs (original_size : Nat) (renamed : Bool)
    (temp orig : String) (tempExists : Bool) (rbe : Option String) (rc : Int)
    (stdout stderr : String) (sizeOf : String → Nat) :
    (optimize_png_post original_size renamed temp orig tempExists rbe rc stdout stderr sizeOf).logs
      = (renameBack renamed temp orig tempExists rbe).2 := by
  unfold optimize_png_post
  split <;> rfl

/-! The claim theorems. -/

/-- C2 counterexample: the claim says that on any write error the prior
on-disk store content is unchanged. In the code the save opens the file
in write mode, which truncates it in place, so a write failing right
after the open leaves the file empty rather than holding the prior
serialization. -/
theorem C2_counterexample :
    (save_optimized_timestamps "SERIAL" (some "OLD") (some (SaveFailure.writeFail 0))).1
      ≠ some "OLD" ∧
    (save_optimized_timestamps "SERIAL" (some "OLD") (some (SaveFailure.writeFail 0))).2
      = true := by
  constructor
  · decide
  · rfl

/-- C2 (amended): save_optimized_timestamps writes the store in place;
an error during the write is caught and reported without aborting the
run, and on a clean call the full serialization is on disk, but a write
failing after k characters leaves a bare prefix of the new
serialization, not the prior content; only a failure of the open itself
leaves the prior content intact. -/
theorem C2_amended_thm (serialized : String) (disk : Option String)
    (f : Option SaveFailure) :
    (f = none → save_optimized_timestamps serialized disk f = (some serialized, false)) ∧
    (f ≠ none → (save_optimized_timestamps serialized disk f).2 = true) ∧
    (∀ k, f = some (SaveFailure.writeFail k) →
      (save_optimized_timestamps serialized disk f).1 = some (serialized.take k)) ∧
    (f = some SaveFailure.openFail →
      (save_optimized_timestamps serialized disk f).1 = disk) := by
  refine ⟨?_, ?_, ?_, ?_⟩
  · intro h; subst h; rfl
  · intro h
    match f with
    | none => exact absurd rfl h
    | some SaveFailure.openFail => rfl
    | some (SaveFailure.writeFail k) => rfl
  · intro k h; subst h; rfl
  · intro h; subst h; rfl

/-- C2 witness: the amended theorem applied at a concrete failing write. -/
theorem C2_witness :
    (save_optimized_timestamps "SERIAL" (some "OLD") (some (SaveFailure.writeFail 3))).1
      = some ("SERIAL".take 3) :=
  (C2_amended_thm "SERIAL" (some "OLD") (some (SaveFailure.writeFail 3))).2.2.1 3 rfl

/-- C3 counterexample: the claim says the bytes-saved added to the run
total is floored at zero when negative. The code computes
original size minus resulting size with no floor and the worker adds
the raw value, so a command that grows the file from 10 to 15 bytes
adds minus five, where the claim predicts zero. -/
theorem C3_counterexample :
    (optimize_png_post 10 false "tmp" "orig" false none 0 "out" "err" (fun _ => 15)).success
      = true ∧
    (optimize_png_post 10 false "tmp" "orig" false none 0 "out" "err" (fun _ => 15)).savings
      = -5 ∧
    (workerFinish false ⟨0, 0, 0, 0, []⟩ "k" true
      (optimize_png_post 10 false "tmp" "orig" false none 0 "out" "err" (fun _ => 15)).savings
      none).savings = -5 ∧
    (-5 : Int) ≠ max ((10 : Int) - 15) 0 := by
  refine ⟨rfl, rfl, rfl, by decide⟩

/-- C3 (amended): on exit code 0 the outcome is a success whose savings
equal the original size minus the resulting size of the file the code
ends up measuring, with no floor at zero, and the worker adds exactly
that possibly negative amount to the run total. -/
theorem C3_amended_thm (original_size : Nat) (renamed : Bool) (temp orig : String)
    (tempExists : Bool) (rbe : Option String) (stdout stderr : String)
    (sizeOf : String → Nat) (a : Agg) (key : String) (ts : Option Int) :
    (optimize_png_post original_size renamed temp orig tempExists rbe 0 stdout stderr sizeOf).success
      = true ∧
    (optimize_png_post original_size renamed temp orig tempExists rbe 0 stdout stderr sizeOf).savings
      = (original_size : Int) -
        (sizeOf (optimize_png_post original_size renamed temp orig tempExists rbe 0 stdout stderr sizeOf).finalName : Int) ∧
    (workerFinish false a key true
      (optimize_png_post original_size renamed temp orig tempExists rbe 0 stdout stderr sizeOf).savings
      ts).savings
      = a.savings + ((original_size : Int) -
        (sizeOf (optimize_png_post original_size renamed temp orig tempExists rbe 0 stdout stderr sizeOf).finalName : Int)) := by
  exact ⟨rfl, rfl, rfl⟩

/-- C4 counterexample: the claim says an error is surfaced when the
surrogate no longer exists after the external command. In the code the
rename-back is silently skipped in that case: no log line is written
and the call still reports plain success. -/
theorem C4_counterexample :
    (optimize_png_post 10 true "tmp" "orig" false none 0 "fine" "bad" (fun _ => 8)).logs
      = [] ∧
    (optimize_png_post 10 true "tmp" "orig" false none 0 "fine" "bad" (fun _ => 8)).success
      = true ∧
    (optimize_png_post 10 true "tmp" "orig" false none 0 "fine" "bad" (fun _ => 8)).output
      = "fine".trim := by
  refine ⟨rfl, rfl, rfl⟩

/-- C4 (amended): for a renamed item, when the surrogate still exists
and the names differ and os.rename raises no error, the surrogate is
renamed back to the original name with no log line; when os.rename
raises, the error is logged and the file stays under its surrogate
name; when the surrogate no longer exists, the rename-back is silently
skipped with no log line and no surfaced error. -/
theorem C4_amended_thm (original_size : Nat) (temp orig : String)
    (tempExists : Bool) (rbe : Option String) (rc : Int)
    (stdout stderr : String) (sizeOf : String → Nat) :
    (rbe = none →
      (optimize_png_post original_size true temp orig tempExists rbe rc stdout stderr sizeOf).finalName = orig ∧
      (optimize_png_post original_size true temp orig tempExists rbe rc stdout stderr sizeOf).logs = []) ∧
    (tempExists = true → orig ≠ temp → ∀ e, rbe = some e →
      (optimize_png_post original_size true temp orig tempExists rbe rc stdout stderr sizeOf).finalName = temp ∧
      (optimize_png_post original_size true temp orig tempExists rbe rc stdout stderr sizeOf).logs ≠ []) ∧
    (tempExists = false →
      (optimize_png_post original_size true temp orig tempExists rbe rc stdout stderr sizeOf).finalName = orig ∧
      (optimize_png_post original_size true temp orig tempExists rbe rc stdout stderr sizeOf).logs = []) := by
  refine ⟨?_, ?_, ?_⟩
  · intro h
    subst h
    rw [optimize_png_post_finalName, optimize_png_post_logs]
    unfold renameBack
    split <;> exact ⟨rfl, rfl⟩
  · intro hte hne e h
    subst h
    subst hte
    rw [optimize_png_post_finalName, optimize_png_post_logs]
    unfold renameBack
    have hb : (true && true && (orig != temp)) = true := by
      simp [bne_iff_ne, hne]
    rw [if_pos hb]
    exact ⟨rfl, by simp⟩
  · intro hte
    subst hte
    rw [optimize_png_post_finalName, optimize_png_post_logs]
    unfold renameBack
    simp

/-- C4 witness: the amended theorem applied at a concrete failing
rename-back. -/
theorem C4_witness :
    (optimize_png_post 10 true "tmp" "orig" true (some "EBUSY") 0 "o" "e" (fun _ => 8)).finalName
      = "tmp" ∧
    (optimize_png_post 10 true "tmp" "orig" true (some "EBUSY") 0 "o" "e" (fun _ => 8)).logs
      ≠ [] :=
  (C4_amended_thm 10 "tmp" "orig" true (some "EBUSY") 0 "o" "e" (fun _ => 8)).2.1
    rfl (by decide) "EBUSY" rfl

/-- C8 counterexample: the claim says counter updates are mutually
exclusive so the final counts are the same for every completion order.
The increments of line 437 are unguarded; splitting each into its load
and store halves, two valid interleavings of the same two workers end
with different counter values, one update being lost. -/
theorem C8_counterexample :
    Interleaving (incProgram 1) (incProgram 2)
      [MicroOp.load 1, MicroOp.store 1, MicroOp.load 2, MicroOp.store 2] ∧
    Interleaving (incProgram 1) (incProgram 2)
      [MicroOp.load 1, MicroOp.load 2, MicroOp.store 1, MicroOp.store 2] ∧
    runOps [MicroOp.load 1, MicroOp.store 1, MicroOp.load 2, MicroOp.store 2] = 2 ∧
    runOps [MicroOp.load 1, MicroOp.load 2, MicroOp.store 1, MicroOp.store 2] = 1 := by
  refine ⟨?_, ?_, rfl, rfl⟩
  · exact Interleaving.left _ _ _ _ (Interleaving.left _ _ _ _
      (Interleaving.right _ _ _ _ (Interleaving.right _ _ _ _ Interleaving.nil)))
  · exact Interleaving.left _ _ _ _ (Interleaving.right _ _ _ _
      (Interleaving.left _ _ _ _ (Interleaving.right _ _ _ _ Interleaving.nil)))

/-- C8 (amended): the run-wide counter mutations are performed by the
worker threads with no lock and no single consumer, so they are not
mutually exclusive: for any two workers, the sequential interleaving of
their unguarded increments yields 2 while the interleaving that
overlaps the two read-modify-write sequences yields 1, losing one
update, so the final counts depend on the completion order. -/
theorem C8_amended_thm (w1 w2 : Nat) :
    Interleaving (incProgram w1) (incProgram w2) (incProgram w1 ++ incProgram w2) ∧
    Interleaving (incProgram w1) (incProgram w2)
      [MicroOp.load w1, MicroOp.load w2, MicroOp.store w1, MicroOp.store w2] ∧
    runOps (incProgram w1 ++ incProgram w2) = 2 ∧
    runOps [MicroOp.load w1, MicroOp.load w2, MicroOp.store w1, MicroOp.store w2] = 1 := by
  refine ⟨?_, ?_, ?_, ?_⟩
  · exact Interleaving.left _ _ _ _ (Interleaving.left _ _ _ _
      (Interleaving.right _ _ _ _ (Interleaving.right _ _ _ _ Interleaving.nil)))
  · exact Interleaving.left _ _ _ _ (Interleaving.right _ _ _ _
      (Interleaving.left _ _ _ _ (Interleaving.right _ _ _ _ Interleaving.nil)))
  · simp [runOps, microStep, incProgram]
  · simp [runOps, microStep, incProgram]

/-- Initial aggregate of the cancellation counterexample run. -/
def cancelAgg0 : Agg := ⟨0, 0, 0, 0, []⟩

/-- Cancellation counterexample trace, state 0: one pending item. -/
def cancelS0 : RunState := ⟨["a"], [], false, cancelAgg0, none⟩

/-- Cancellation counterexample trace, state 1: the item dispatched. -/
def cancelS1 : RunState := ⟨[], ["a"], false, cancelAgg0, none⟩

/-- Cancellation counterexample trace, state 2: the flag raised while
the item is in flight. -/
def cancelS2 : RunState := ⟨[], ["a"], true, cancelAgg0, none⟩

/-- Cancellation counterexample trace, state 3: the item has completed
successfully but its outcome was discarded. -/
def cancelS3 : RunState := ⟨[], [], true, cancelAgg0, none⟩

/-- Cancellation counterexample trace, state 4: the store persisted. -/
def cancelS4 : RunState := ⟨[], [], true, cancelAgg0, some []⟩

/-- C1 counterexample: the claim says every dispatched item completes
with its outcome reflected in the counters, and the persisted store
holds the successes that were in flight when the flag was raised. In
this trace item a is dispatched, the flag is raised, the item then
completes successfully with savings 5, yet the success counter stays 0
and the persisted store does not contain the item, because the worker
drops outcomes observed after the flag (line 435). -/
theorem C1_counterexample :
    Step cancelS0 (Event.dispatch "a") cancelS1 ∧
    Step cancelS1 Event.raiseFlag cancelS2 ∧
    cancelS2.flag = true ∧
    Step cancelS2 (Event.complete "a" true 5 (some 10)) cancelS3 ∧
    Step cancelS3 Event.save cancelS4 ∧
    cancelS4.agg.succeeded = 0 ∧
    cancelS4.agg.savings = 0 ∧
    cancelS4.saved = some [] ∧
    storeGet [] "a" = none := by
  refine ⟨?_, ?_, rfl, ?_, ?_, rfl, rfl, rfl, rfl⟩
  · exact Step.dispatch cancelS0 "a" [] rfl rfl rfl
  · exact Step.raiseFlag cancelS1 rfl
  · exact Step.complete cancelS2 "a" true 5 (some 10) (by simp [cancelS2]) rfl
  · exact Step.save cancelS3 rfl (Or.inr rfl) rfl

/-- C1 (amended): after the flag is observed no new item is dispatched;
an already-dispatched item still completes, but a completion that
happens with the flag set leaves the counters and the store untouched,
its outcome discarded; a successful completion with the flag unset is
fully recorded; the final save persists exactly the in-memory store,
which therefore holds exactly the successes recorded before the flag
was observed. -/
theorem C1_amended_thm :
    (∀ s k t, Step s (Event.dispatch k) t → s.flag = false) ∧
    (∀ s k b sv ts t, Step s (Event.complete k b sv ts) t → s.flag = true →
      t.agg = s.agg ∧ t.saved = s.saved) ∧
    (∀ s k sv ts t, Step s (Event.complete k true sv ts) t → s.flag = false →
      t.agg.succeeded = s.agg.succeeded + 1 ∧
      t.agg.savings = s.agg.savings + sv ∧
      t.agg.store = storeSet s.agg.store k ts) ∧
    (∀ s t, Step s Event.save t → t.saved = some s.agg.store ∧ t.agg = s.agg) := by
  refine ⟨?_, ?_, ?_, ?_⟩
  · intro s k t h
    cases h with
    | dispatch _ rest hf hp hs => exact hf
  · intro s k b sv ts t h hf
    cases h with
    | complete _ _ _ _ hk hs =>
      refine ⟨?_, rfl⟩
      show workerFinish s.flag s.agg k b sv ts = s.agg
      rw [hf]
      rfl
  · intro s k sv ts t h hf
    cases h with
    | complete _ _ _ _ hk hs =>
      refine ⟨?_, ?_, ?_⟩ <;>
        · show _
          rw [show workerFinish s.flag s.agg k true sv ts
              = workerRecord s.agg k true sv ts by rw [hf]; rfl]
          rfl
  · intro s t h
    cases h with
    | save hr hp hs => exact ⟨rfl, rfl⟩

/-- C1 witness: the save part of the amended theorem at a concrete
state. -/
theorem C1_amended_witness :
    ({ pending := [], running := [], flag := true,
       agg := ⟨2, 1, 1, 7, [("a", some 3)]⟩,
       saved := some [("a", some 3)] } : RunState).saved
      = some (⟨2, 1, 1, 7, [("a", some 3)]⟩ : Agg).store :=
  ((C1_amended_thm).2.2.2
    ⟨[], [], true, ⟨2, 1, 1, 7, [("a", some 3)]⟩, none⟩ _
    (Step.save ⟨[], [], true, ⟨2, 1, 1, 7, [("a", some 3)]⟩, none⟩ rfl (Or.inr rfl) rfl)).1

/-- C5: the key computation of the source, the relative path with the
platform separator replaced by the canonical one and the Unicode
normalization applied to the whole string, coincides with the spec
formula for every normalization function, every separator that is not
the period, and components free of the separator. Purity and absence of
filesystem access hold by construction: pathKey is a total function of
its string inputs alone. -/
theorem C5_pathkey_codec (nfc : String → String) (sep : Char)
    (pathC startC : List String) (hdot : sep ≠ '.')
    (hcomp : ∀ p ∈ pathC, ∀ ch ∈ p.data, ch ≠ sep) :
    pathKey nfc sep pathC startC = pathKeySpec nfc pathC startC := by
  unfold pathKey pathKeySpec normKey relpath
  by_cases h : relComponents pathC startC = []
  · rw [if_pos h, if_pos h]
    congr 1
    apply replaceSep_eq_self
    intro ch hch
    have hdata : (".").data = ['.'] := rfl
    rw [hdata] at hch
    have : ch = '.' := by simpa using hch
    rw [this]
    exact fun hc => hdot hc.symm
  · rw [if_neg h, if_neg h]
    congr 1
    apply replaceSep_joinSep
    intro p hp ch hch
    unfold relComponents at hp
    rcases List.mem_append.mp hp with h2 | h2
    · have hpp : p = ".." := List.eq_of_mem_replicate h2
      subst hpp
      have hdata : ("..").data = ['.', '.'] := rfl
      rw [hdata] at hch
      have : ch = '.' := by
        rcases List.mem_cons.mp hch with h3 | h3
        · exact h3
        · simpa using h3
      rw [this]
      exact fun hc => hdot hc.symm
    · exact hcomp p (List.drop_subset _ _ h2) ch hch

/-- C5 witness: the source key equals the spec key on a concrete
Windows-style input. -/
theorem C5_witness :
    pathKey id '\\' ["d", "sub", "name.png"] ["d"]
      = pathKeySpec id ["d", "sub", "name.png"] ["d"] :=
  C5_pathkey_codec id '\\' ["d", "sub", "name.png"] ["d"] (by decide) (by decide)

/-- C6: the planner puts a discovered key on the work list exactly when
it is not skipped, that is when the key is absent from the store or the
stored fingerprint differs from the current one, and the work list
length plus the skip count equals the number of discovered files. -/
theorem C6_planner (st : Store) (fp : String → Option Int) (files : List String) :
    ((plan st fp files).1.length + (plan st fp files).2 = files.length) ∧
    (∀ k, k ∈ (plan st fp files).1 ↔ k ∈ files ∧ isSkipped st fp k = false) := by
  rw [plan_eq_filter]
  constructor
  · exact filter_length_split (fun k => isSkipped st fp k) files
  · intro k
    simp [List.mem_filter]

/-- Helper for C7: the join of a directory and a component always ends
with the component. -/
theorem pathJoin_suffix (a b : String) : ∃ x, pathJoin a b = x ++ b := by
  unfold pathJoin
  by_cases h1 : b.startsWith "/"
  · rw [if_pos h1]
    exact ⟨"", by apply String.ext; rfl⟩
  · rw [if_neg h1]
    by_cases h2 : a = "" ∨ a.endsWith "/"
    · rw [if_pos h2]
      exact ⟨a, rfl⟩
    · rw [if_neg h2]
      exact ⟨a ++ "/", rfl⟩

/-- C7: the surrogate name is a function of the absolute original path
alone, and two paths whose digests differ get distinct surrogate names,
because the surrogate always ends with the fixed-width digest. The
determinism part is by construction: generate_temp_filename is a total
function of the path. -/
theorem C7_surrogate (md5hex : String → String)
    (hlen : ∀ s, (md5hex s).length = 32)
    (p1 p2 : String) (hne : md5hex p1 ≠ md5hex p2) :
    generate_temp_filename md5hex p1 ≠ generate_temp_filename md5hex p2 := by
  intro heq
  obtain ⟨x1, e1⟩ := pathJoin_suffix (get_path_root p1) (md5hex p1)
  obtain ⟨x2, e2⟩ := pathJoin_suffix (get_path_root p2) (md5hex p2)
  unfold generate_temp_filename at heq
  rw [e1, e2] at heq
  have hdata : x1.data ++ (md5hex p1).data = x2.data ++ (md5hex p2).data := by
    have hd := congrArg String.data heq
    simpa using hd
  have hlen2 : (md5hex p1).data.length = (md5hex p2).data.length := by
    have l1 : (md5hex p1).data.length = 32 := hlen p1
    have l2 : (md5hex p2).data.length = 32 := hlen p2
    rw [l1, l2]
  exact hne (String.ext (List.append_inj' hdata hlen2).2)

/-- Concrete digest function for the C7 witness: constant length 32 and
injective on the two inputs of interest. -/
def cwHash : String → String :=
  fun s => if s = "/a/x.png" then "00000000000000000000000000000000"
           else "11111111111111111111111111111111"

set_option maxRecDepth 4096 in
/-- C7 witness: two distinct concrete paths with distinct digests get
distinct surrogate names. -/
theorem C7_witness :
    generate_temp_filename cwHash "/a/x.png" ≠ generate_temp_filename cwHash "/a/y.png" :=
  C7_surrogate cwHash
    (by intro s; unfold cwHash; split <;> rfl)
    "/a/x.png" "/a/y.png" (by decide)

/-- C10: every key of a store reachable inside a run is already
separator-normalized and fixed by the Unicode normalization: keys are
re-normalized on load, reconciliation only removes entries, and every
success is inserted under a normalized key, so the invariant holds
after load and is preserved by every store mutation. The two
hypotheses state the facts used about the real NFC transform: it is
idempotent and it introduces no separator character. -/
theorem C10_store_invariant (nfc : String → String) (sep : Char)
    (hIdem : ∀ s, nfc (nfc s) = nfc s)
    (hPres : ∀ s, (∀ ch ∈ s.data, ch ≠ sep) → ∀ ch ∈ (nfc s).data, ch ≠ sep)
    (st : Store) (hst : InRunStore nfc sep st) :
    ∀ k ∈ storeKeys st, NormalizedKey nfc sep k := by
  induction hst with
  | loaded pf existing =>
    intro k hk
    have hsub : k ∈ storeKeys (loadPersisted nfc sep pf) := by
      obtain ⟨kv, hkv, hkeq⟩ := List.mem_map.mp hk
      have hkv2 : kv ∈ loadPersisted nfc sep pf := List.mem_of_mem_filter hkv
      exact hkeq ▸ List.mem_map_of_mem _ hkv2
    cases pf with
    | missing => exact absurd hsub (by simp [loadPersisted, storeKeys])
    | corrupt => exact absurd hsub (by simp [loadPersisted, storeKeys])
    | ok raw =>
      obtain ⟨s, hs⟩ := loadTimestamps_keys nfc sep raw k hsub
      rw [hs]
      exact normalizedKey_normKey nfc sep hIdem hPres s
  | added st2 pathC startC ts hst2 ih =>
    intro k hk
    rcases storeKeys_storeSet st2 (pathKey nfc sep pathC startC) ts k hk with h | h
    · rw [h]
      exact normalizedKey_normKey nfc sep hIdem hPres (relpath sep pathC startC)
    · exact ih k h

/-- C10 witness: the invariant applied to the concrete key of a
concrete loaded store, with the identity as normalization function. -/
theorem C10_witness : NormalizedKey id '/' "a" :=
  C10_store_invariant id '/' (fun _ => rfl) (fun _ h => h)
    (cleanTimestamps (loadPersisted id '/' (PersistedFile.ok [("a", some 3)])) ["a"]).1
    (InRunStore.loaded (PersistedFile.ok [("a", some 3)]) ["a"]) "a" (by decide)

/-- Helper for C9: after the first run has recorded every work item
under its post-run fingerprint, every discovered key tests as skipped
against the updated store. -/
theorem all_skipped_after_update (store : Store) (fpBefore fpAfter : String → Option Int)
    (files : List String) (hnd : files.Nodup)
    (hstable : ∀ k ∈ files, isSkipped store fpBefore k = true → fpAfter k = fpBefore k) :
    ∀ k ∈ files,
      isSkipped ((files.filter (fun k2 => !(isSkipped store fpBefore k2))).foldl
        (fun a k2 => storeSet a k2 (fpAfter k2)) store) fpAfter k = true := by
  intro k hk
  rw [isSkipped_true_iff]
  by_cases hsk : isSkipped store fpBefore k = true
  · have hknw : k ∉ files.filter (fun k2 => !(isSkipped store fpBefore k2)) := by
      intro hmem
      have h2 := (List.mem_filter.mp hmem).2
      rw [hsk] at h2
      simp at h2
    rw [storeGet_runPass_not_mem fpAfter _ store k hknw]
    rw [(isSkipped_true_iff store fpBefore k).mp hsk, hstable k hk hsk]
  · have hsk2 : isSkipped store fpBefore k = false := by
      cases h2 : isSkipped store fpBefore k
      · rfl
      · exact absurd h2 hsk
    have hkw : k ∈ files.filter (fun k2 => !(isSkipped store fpBefore k2)) :=
      List.mem_filter.mpr ⟨hk, by rw [hsk2]; rfl⟩
    rw [storeGet_runPass_mem fpAfter _ store k hkw (hnd.filter _)]

/-- C9: a second planning pass over the same discovered keys, against
the store produced by a first run in which every work item succeeded
and was recorded under its post-run fingerprint, then persisted,
reloaded with key re-normalization and reconciled, yields an empty work
list and skips every file. The hypotheses say the discovered keys are
distinct and already normalized, the incoming store was already
reconciled against the discovered set, and files the first run skipped
kept their fingerprints. -/
theorem C9_idempotent (nfc : String → String) (sep : Char) (store : Store)
    (fpBefore fpAfter : String → Option Int) (files : List String)
    (hnd : files.Nodup)
    (hkeys : ∀ kv ∈ store, kv.1 ∈ files)
    (hsnd : (storeKeys store).Nodup)
    (hfix : ∀ k ∈ files, normKey nfc sep k = k)
    (hstable : ∀ k ∈ files, isSkipped store fpBefore k = true → fpAfter k = fpBefore k) :
    plan (cleanTimestamps
        (loadTimestamps nfc sep (runPass store fpBefore fpAfter files)) files).1
      fpAfter files = ([], files.length) := by
  have hrp : runPass store fpBefore fpAfter files
      = (files.filter (fun k2 => !(isSkipped store fpBefore k2))).foldl
          (fun a k2 => storeSet a k2 (fpAfter k2)) store := by
    unfold runPass
    rw [plan_eq_filter]
  have hmem2 : ∀ kv ∈ runPass store fpBefore fpAfter files, kv.1 ∈ files := by
    intro kv hkv
    rw [hrp] at hkv
    rcases mem_runPass_fold fpAfter _ store kv hkv with h | h
    · exact hkeys kv h
    · exact List.mem_of_mem_filter h
  have hnd2 : (storeKeys (runPass store fpBefore fpAfter files)).Nodup := by
    rw [hrp]
    exact nodup_runPass_fold fpAfter _ store hsnd
  have hload : loadTimestamps nfc sep (runPass store fpBefore fpAfter files)
      = runPass store fpBefore fpAfter files := by
    have hl : loadTimestamps nfc sep (runPass store fpBefore fpAfter files)
        = [] ++ runPass store fpBefore fpAfter files :=
      loadTimestamps_fixed nfc sep (runPass store fpBefore fpAfter files) []
        (fun kv hkv => hfix kv.1 (hmem2 kv hkv)) (by simpa using hnd2)
    simpa using hl
  rw [hload, cleanTimestamps_id _ _ hmem2, hrp]
  exact plan_all_skipped _ fpAfter files
    (all_skipped_after_update store fpBefore fpAfter files hnd hstable)

/-- Concrete fingerprint function for the C9 witness. -/
def c9fp : String → Option Int := fun k => if k = "b" then some 1 else some 5

/-- C9 witness: a concrete two-file root where one file is already
recorded: the second pass over the store left by the first run skips
both files. -/
theorem C9_witness :
    plan (cleanTimestamps (loadTimestamps id '/'
        (runPass [("b", some 1)] c9fp c9fp ["a", "b"])) ["a", "b"]).1
      c9fp ["a", "b"] = ([], ["a", "b"].length) :=
  C9_idempotent id '/' [("b", some 1)] c9fp c9fp ["a", "b"]
    (by decide) (by decide) (by decide) (by decide) (by decide)

end Optipngdir
